import Mathlib

/-!
Shallow embedding of `src/interpreter_ex1.py`: a tokenizer plus a one-shot
parser/evaluator for expressions of the form `INTEGER OP INTEGER` with
`OP ∈ {+, -, *, /}`.

Modelling conventions:
* the input string is a `List Char`; the lexer cursor is an explicit
  position (a `Nat` index into that list), exactly as `self.pos` in the code;
* `current_char` is not stored: the Python code maintains the invariant
  `current_char = code[pos] if pos < len(code) else None`, which here is the
  derived expression `code[pos]?`;
* Python's `str.isspace` / `str.isdigit` are modelled by `Char.isWhitespace` /
  `Char.isDigit` (the ASCII whitespace and digit sets, which cover every
  character the specification discusses);
* exceptions become an `Except Err` result: `ParseError` carries its message
  string, `IndexError` models the host's out-of-range indexing error (raised
  by `__init__` on empty input and by `_error` when `self.pos` is past the
  end), and `ZeroDivisionError` models the host's divide-by-zero signal;
* Python's `int` results are modelled as `ℤ` and the `float` produced by true
  division `/` as an exact `ℚ` value (the claims under study only concern
  true-division semantics, not floating-point rounding).
-/

namespace Interp

/-- Token kinds and payloads, mirroring the Python `Token` objects: the pair
`(type_, value)` is `(INTEGER, n)`, `(PLUS, "+")`, `(MINUS, "-")`,
`(MULTIPLY, "*")`, `(DIVIDE, "/")` or `(EOF, None)`; since the `value` field
is determined by `type_` (plus the integer payload), the pair is modelled as
one inductive. -/
inductive Token where
  | INTEGER (n : ℕ)
  | PLUS
  | MINUS
  | MULTIPLY
  | DIVIDE
  | EOF
deriving DecidableEq

/-- Errors the interpreter can signal.  `parseError` is the `ParseError`
class of the source with its message; `indexError` is Python's `IndexError`
(out-of-range string indexing); `zeroDivisionError` is Python's
`ZeroDivisionError`; `keyError` models the (unreachable) `KeyError` a lookup
of a non-operator token kind in `op_to_operator` would raise. -/
inductive Err where
  | parseError (msg : String)
  | indexError
  | zeroDivisionError
  | keyError
deriving DecidableEq

/-- Result values: Python `int` for `+`, `-`, `*` and Python `float`
(modelled exactly, as a rational) for true division `/`. -/
inductive PyNum where
  | int (i : ℤ)
  | float (q : ℚ)
deriving DecidableEq

/-- Number of leading whitespace characters of a list: the iteration count of
the `while` loop in `Interpreter._skip_whitespace`. -/
def wsCount : List Char → ℕ
  | [] => 0
  | c :: cs => if c.isWhitespace then wsCount cs + 1 else 0

/-- The `Interpreter._skip_whitespace` method: starting from `pos`, advance
past the maximal run of whitespace characters and return the new position. -/
def skipWs (code : List Char) (pos : ℕ) : ℕ :=
  pos + wsCount (code.drop pos)

/-- The digit-run loop of `Interpreter._integer`, acting on the remainder of
the input: returns the numeric value of the maximal leading digit run
(accumulated left to right, which is what `int` applied to the collected
digit string computes) together with the number of characters consumed. -/
def lexDigits : List Char → ℕ → ℕ × ℕ
  | [], acc => (acc, 0)
  | c :: cs, acc =>
      if c.isDigit then
        let r := lexDigits cs (10 * acc + (c.toNat - 48))
        (r.1, r.2 + 1)
      else (acc, 0)

/-- The `Interpreter._integer` method: parse the maximal digit run starting
at `pos`, returning its value and the position just past it. -/
def lexInt (code : List Char) (pos : ℕ) : ℕ × ℕ :=
  let r := lexDigits (code.drop pos) 0
  (r.1, pos + r.2)

/-- Caret line prepended by `Interpreter._error`: `" " * (pos + 3) + "^\n"`. -/
def errMsgPre (pos : ℕ) : String :=
  String.mk (List.replicate (pos + 3) ' ') ++ "^\n"

/-- Diagnostic line of `Interpreter._error`:
`f"Error parsing code at symbol {pos+1}: '{code[pos]}'"`. -/
def errMsgLine (pos : ℕ) (c : Char) : String :=
  "Error parsing code at symbol " ++ toString (pos + 1) ++ ": '"
    ++ String.mk [c] ++ "'"

/-- Full `ParseError` message raised by `Interpreter._error`. -/
def errMsg (pos : ℕ) (c : Char) : String :=
  errMsgPre pos ++ errMsgLine pos c

/-- The `Interpreter._error` method.  It interpolates `self.code[self.pos]`
into the message, so when `pos` is past the end of the input the attempted
indexing itself raises `IndexError` before any `ParseError` is constructed. -/
def errorAt (code : List Char) (pos : ℕ) : Err :=
  match code[pos]? with
  | some c => .parseError (errMsg pos c)
  | none => .indexError

/-- The `Interpreter._is_operation` test: `current_char in ["+","-","*","/"]`. -/
def isOperation (c : Char) : Bool :=
  c = '+' || c = '-' || c = '*' || c = '/'

/-- The `Interpreter._get_next_token` method.  The Python `while` loop first
skips whitespace (maximally, thanks to the `continue`), then looks at the
current character: end of input yields `EOF`, a digit yields an `INTEGER`
token via `_integer`, an operator character yields the matching operator
token and advances by one, and anything else calls `_error`. -/
def getNextToken (code : List Char) (pos : ℕ) : Except Err (Token × ℕ) :=
  let p := skipWs code pos
  match code[p]? with
  | none => .ok (.EOF, p)
  | some c =>
    if c.isDigit then
      let r := lexInt code p
      .ok (.INTEGER r.1, r.2)
    else if c = '+' then .ok (.PLUS, p + 1)
    else if c = '-' then .ok (.MINUS, p + 1)
    else if c = '*' then .ok (.MULTIPLY, p + 1)
    else if c = '/' then .ok (.DIVIDE, p + 1)
    else .error (errorAt code p)

/-- Test used by `Interpreter._eat` for the operator position:
`current_token.type_ in [PLUS, MINUS, MULTIPLY, DIVIDE]`. -/
def isOpToken : Token → Bool
  | .PLUS => true
  | .MINUS => true
  | .MULTIPLY => true
  | .DIVIDE => true
  | _ => false

/-- Dispatch of `op_to_operator` in `Interpreter.expr`: `operator.add`,
`operator.sub`, `operator.mul` on Python ints, `operator.truediv` producing
a float (raising `ZeroDivisionError` when the divisor is `0`).  The final
branch is unreachable from `expr`, which guards with `isOpToken`; Python
would raise `KeyError` there. -/
def applyOp (op : Token) (l r : ℕ) : Except Err PyNum :=
  match op with
  | .PLUS => .ok (.int ((l : ℤ) + (r : ℤ)))
  | .MINUS => .ok (.int ((l : ℤ) - (r : ℤ)))
  | .MULTIPLY => .ok (.int ((l : ℤ) * (r : ℤ)))
  | .DIVIDE =>
      if r = 0 then .error .zeroDivisionError
      else .ok (.float ((l : ℚ) / (r : ℚ)))
  | _ => .error .keyError

/-- The `Interpreter.expr` method.  Each `_eat` that succeeds immediately
pulls the next token (so one token of lookahead is fetched even after the
second integer); each `_eat` that fails calls `_error()` at the lexer's
current position.  Errors raised inside `_get_next_token` propagate. -/
def expr (code : List Char) : Except Err PyNum :=
  match getNextToken code 0 with
  | .error e => .error e
  | .ok (tok1, p1) =>
    match tok1 with
    | .INTEGER l =>
      match getNextToken code p1 with
      | .error e => .error e
      | .ok (op, p2) =>
        if isOpToken op then
          match getNextToken code p2 with
          | .error e => .error e
          | .ok (tok3, p3) =>
            match tok3 with
            | .INTEGER r =>
              match getNextToken code p3 with
              | .error e => .error e
              | .ok _ => applyOp op l r
            | _ => .error (errorAt code p3)
        else .error (errorAt code p2)
    | _ => .error (errorAt code p1)

/-- One full evaluation: `Interpreter(code).expr()`.  `Interpreter.__init__`
executes `self.current_char = self.code[self.pos]` with `pos = 0`, which on
the empty string raises `IndexError` before any tokenizing happens. -/
def evalChars (code : List Char) : Except Err PyNum :=
  match code with
  | [] => .error .indexError
  | _ :: _ => expr code

/-- String-level entry point. -/
def evaluate (s : String) : Except Err PyNum :=
  evalChars s.data

/-! Auxiliary definitions used to state the claims: decimal rendering of
natural numbers (Python's `str` / the spec's `f"{a}{op}{b}"`), the numeric
value of a digit list, head tests on character lists, and the operator
token denoted by an operator character. -/

/-- Decimal digit character for a value below ten. -/
def digitChar : ℕ → Char
  | 0 => '0'
  | 1 => '1'
  | 2 => '2'
  | 3 => '3'
  | 4 => '4'
  | 5 => '5'
  | 6 => '6'
  | 7 => '7'
  | 8 => '8'
  | _ => '9'

/-- Decimal digits of a natural number, most significant first; the `fuel`
argument only forces structural recursion and any `fuel > n` computes the
digits. -/
def natDigitsAux : ℕ → ℕ → List Char
  | 0, _ => []
  | fuel + 1, n =>
      if n < 10 then [digitChar n]
      else natDigitsAux fuel (n / 10) ++ [digitChar (n % 10)]

/-- Decimal rendering of a natural number, as Python's `str` produces it. -/
def natDigits (n : ℕ) : List Char := natDigitsAux (n + 1) n

/-- Value of a digit list read left to right starting from accumulator
`acc`: what `int` applied to the collected digit string computes. -/
def valFrom (acc : ℕ) (ds : List Char) : ℕ :=
  ds.foldl (fun a c => 10 * a + (c.toNat - 48)) acc

/-- Check that a list does not start with a whitespace character. -/
def noLeadWs (l : List Char) : Bool :=
  match l.head? with
  | some c => !c.isWhitespace
  | none => true

/-- Check that a list does not start with a digit character. -/
def noLeadDigit (l : List Char) : Bool :=
  match l.head? with
  | some c => !c.isDigit
  | none => true

/-- Check that the first token starting at a remainder list lexes without a
`ParseError`: after whitespace skipping the lexer is either at end of input
or at a digit or at an operator character. -/
def tailOk (rem : List Char) : Bool :=
  match (rem.drop (wsCount rem)).head? with
  | some c => c.isDigit || isOperation c
  | none => true

/-- The operator token produced by `_get_next_token` for an operator
character (the `Token.Type.from_operation` table). -/
def opToken (c : Char) : Token :=
  if c = '+' then .PLUS
  else if c = '-' then .MINUS
  else if c = '*' then .MULTIPLY
  else .DIVIDE

/-! Fuel-counted variants of the two loops of the tokenizer and of the full
evaluation.  Each loop iteration consumes one unit of fuel and running out
of fuel yields `none`; these make the step bound of the claims about
termination statable: fuel equal to the input length always suffices. -/

/-- Fuel-counted `_skip_whitespace` loop: counts leading whitespace, one
fuel unit per iteration. -/
def wsCountF : ℕ → List Char → Option ℕ
  | _, [] => some 0
  | 0, c :: _ => if c.isWhitespace then none else some 0
  | fuel + 1, c :: cs =>
      if c.isWhitespace then (wsCountF fuel cs).map (· + 1) else some 0

/-- Fuel-counted `_integer` loop. -/
def lexDigitsF : ℕ → List Char → ℕ → Option (ℕ × ℕ)
  | _, [], acc => some (acc, 0)
  | 0, c :: _, acc => if c.isDigit then none else some (acc, 0)
  | fuel + 1, c :: cs, acc =>
      if c.isDigit then
        (lexDigitsF fuel cs (10 * acc + (c.toNat - 48))).map
          (fun r => (r.1, r.2 + 1))
      else some (acc, 0)

/-- Fuel-counted `_get_next_token`: each of its loops runs on the given
fuel budget. -/
def getNextTokenF (fuel : ℕ) (code : List Char) (pos : ℕ) :
    Option (Except Err (Token × ℕ)) :=
  match wsCountF fuel (code.drop pos) with
  | none => none
  | some k =>
    let p := pos + k
    match code[p]? with
    | none => some (.ok (.EOF, p))
    | some c =>
      if c.isDigit then
        match lexDigitsF fuel (code.drop p) 0 with
        | none => none
        | some r => some (.ok (.INTEGER r.1, p + r.2))
      else if c = '+' then some (.ok (.PLUS, p + 1))
      else if c = '-' then some (.ok (.MINUS, p + 1))
      else if c = '*' then some (.ok (.MULTIPLY, p + 1))
      else if c = '/' then some (.ok (.DIVIDE, p + 1))
      else some (.error (errorAt code p))

/-- Fuel-counted `expr`. -/
def exprF (fuel : ℕ) (code : List Char) : Option (Except Err PyNum) :=
  match getNextTokenF fuel code 0 with
  | none => none
  | some (.error e) => some (.error e)
  | some (.ok (tok1, p1)) =>
    match tok1 with
    | .INTEGER l =>
      match getNextTokenF fuel code p1 with
      | none => none
      | some (.error e) => some (.error e)
      | some (.ok (op, p2)) =>
        if isOpToken op then
          match getNextTokenF fuel code p2 with
          | none => none
          | some (.error e) => some (.error e)
          | some (.ok (tok3, p3)) =>
            match tok3 with
            | .INTEGER r =>
              match getNextTokenF fuel code p3 with
              | none => none
              | some (.error e) => some (.error e)
              | some (.ok _) => some (applyOp op l r)
            | _ => some (.error (errorAt code p3))
        else some (.error (errorAt code p2))
    | _ => some (.error (errorAt code p1))

/-- Fuel-counted full evaluation. -/
def evalCharsF (fuel : ℕ) (code : List Char) : Option (Except Err PyNum) :=
  match code with
  | [] => some (.error .indexError)
  | _ :: _ => exprF fuel code

end Interp
namespace Interp

theorem getq_drop (code : List Char) (pos : ℕ) :
    code[pos]? = (code.drop pos).head? := by
  induction code generalizing pos with
  | nil => simp
  | cons c cs ih =>
    cases pos with
    | zero => simp
    | succ p => simp

theorem wsCount_le (l : List Char) : wsCount l ≤ l.length := by
  induction l with
  | nil => simp [wsCount]
  | cons c cs ih =>
    simp only [wsCount, List.length_cons]
    split
    · omega
    · omega

theorem wsCount_append_ws {ws : List Char} (rest : List Char)
    (h : ∀ c ∈ ws, c.isWhitespace = true) :
    wsCount (ws ++ rest) = ws.length + wsCount rest := by
  induction ws with
  | nil => simp
  | cons c cs ih =>
    have hc : c.isWhitespace = true := h c (by simp)
    simp only [List.cons_append, wsCount, hc, if_true, List.length_cons,
      List.append_eq]
    rw [ih (fun x hx => h x (by simp [hx]))]
    omega

theorem wsCount_eq_zero {l : List Char} (h : noLeadWs l = true) :
    wsCount l = 0 := by
  cases l with
  | nil => rfl
  | cons c cs =>
    simp [noLeadWs] at h
    simp [wsCount, h]

theorem ws_not_digit {c : Char} (h : c.isWhitespace = true) :
    c.isDigit = false := by
  simp [Char.isWhitespace] at h
  rcases h with ((h | h) | h) | h <;> subst h <;> decide

theorem digit_not_ws {c : Char} (h : c.isDigit = true) :
    c.isWhitespace = false := by
  cases hw : c.isWhitespace with
  | false => rfl
  | true => rw [ws_not_digit hw] at h; cases h

theorem lexDigits_noLead {l : List Char} (acc : ℕ)
    (h : noLeadDigit l = true) : lexDigits l acc = (acc, 0) := by
  cases l with
  | nil => rfl
  | cons c cs =>
    simp [noLeadDigit] at h
    simp [lexDigits, h]

theorem lexDigits_append {ds : List Char} (rest : List Char) (acc : ℕ)
    (hds : ∀ c ∈ ds, c.isDigit = true) (hrest : noLeadDigit rest = true) :
    lexDigits (ds ++ rest) acc = (valFrom acc ds, ds.length) := by
  induction ds generalizing acc with
  | nil => simpa [valFrom] using lexDigits_noLead acc hrest
  | cons d ds ih =>
    have hd : d.isDigit = true := hds d (by simp)
    simp only [List.cons_append, lexDigits, hd, if_true, List.append_eq]
    rw [ih _ (fun x hx => hds x (by simp [hx]))]
    simp [valFrom]

theorem lexDigits_snd_le (l : List Char) (acc : ℕ) :
    (lexDigits l acc).2 ≤ l.length := by
  induction l generalizing acc with
  | nil => simp [lexDigits]
  | cons c cs ih =>
    simp only [lexDigits]
    split
    · simpa using Nat.succ_le_succ (ih _)
    · simp

theorem digitChar_isDigit {d : ℕ} (h : d < 10) :
    (digitChar d).isDigit = true := by
  interval_cases d <;> decide

theorem digitChar_toNat {d : ℕ} (h : d < 10) :
    (digitChar d).toNat = 48 + d := by
  interval_cases d <;> decide

theorem natDigitsAux_ne_nil {fuel n : ℕ} (h : n < fuel) :
    natDigitsAux fuel n ≠ [] := by
  cases fuel with
  | zero => omega
  | succ fuel =>
    simp only [natDigitsAux]
    split
    · simp
    · simp

theorem natDigitsAux_digits {fuel n : ℕ} (h : n < fuel) :
    ∀ c ∈ natDigitsAux fuel n, c.isDigit = true := by
  induction fuel generalizing n with
  | zero => omega
  | succ fuel ih =>
    simp only [natDigitsAux]
    split_ifs with h10
    · intro c hc
      simp at hc
      subst hc
      exact digitChar_isDigit h10
    · intro c hc
      have hlt : n / 10 < n := Nat.div_lt_self (by omega) (by omega)
      rcases List.mem_append.mp hc with hc | hc
      · exact ih (by omega) c hc
      · simp at hc
        subst hc
        exact digitChar_isDigit (Nat.mod_lt _ (by omega))

theorem valFrom_natDigitsAux {fuel n : ℕ} (acc : ℕ) (h : n < fuel) :
    valFrom acc (natDigitsAux fuel n)
      = acc * 10 ^ (natDigitsAux fuel n).length + n := by
  induction fuel generalizing n acc with
  | zero => omega
  | succ fuel ih =>
    simp only [natDigitsAux]
    split_ifs with h10
    · simp only [valFrom, List.foldl_cons, List.foldl_nil,
        digitChar_toNat h10, List.length_singleton, pow_one]
      omega
    · have hlt : n / 10 < n := Nat.div_lt_self (by omega) (by omega)
      have hmod : n % 10 < 10 := Nat.mod_lt _ (by omega)
      simp only [valFrom, List.foldl_append, List.foldl_cons, List.foldl_nil,
        digitChar_toNat hmod, List.length_append, List.length_singleton]
      have hind := @ih (n / 10) acc (by omega)
      simp only [valFrom] at hind
      rw [hind]
      have hdm : 10 * (n / 10) + n % 10 = n := Nat.div_add_mod n 10
      have hpow : 10 ^ ((natDigitsAux fuel (n / 10)).length + 1)
          = 10 ^ (natDigitsAux fuel (n / 10)).length * 10 := pow_succ 10 _
      rw [hpow]
      have : 10 * (acc * 10 ^ (natDigitsAux fuel (n / 10)).length + n / 10)
            + (48 + n % 10 - 48)
          = acc * (10 ^ (natDigitsAux fuel (n / 10)).length * 10)
            + (10 * (n / 10) + n % 10) := by
        have h48 : 48 + n % 10 - 48 = n % 10 := by omega
        rw [h48]
        ring
      rw [this, hdm]

theorem valFrom_natDigits (n : ℕ) : valFrom 0 (natDigits n) = n := by
  have := @valFrom_natDigitsAux (n + 1) n 0 (by omega)
  simpa [natDigits] using this

theorem natDigits_ne_nil (n : ℕ) : natDigits n ≠ [] :=
  natDigitsAux_ne_nil (by omega)

theorem natDigits_digits (n : ℕ) : ∀ c ∈ natDigits n, c.isDigit = true :=
  natDigitsAux_digits (by omega)

theorem isOperation_cases {c : Char} (h : isOperation c = true) :
    c = '+' ∨ c = '-' ∨ c = '*' ∨ c = '/' := by
  simp only [isOperation, Bool.or_eq_true, decide_eq_true_eq] at h
  tauto

theorem op_not_digit {c : Char} (h : isOperation c = true) :
    c.isDigit = false := by
  rcases isOperation_cases h with h | h | h | h <;> subst h <;> decide

theorem op_not_ws {c : Char} (h : isOperation c = true) :
    c.isWhitespace = false := by
  rcases isOperation_cases h with h | h | h | h <;> subst h <;> decide

theorem isOpToken_opToken {c : Char} (h : isOperation c = true) :
    isOpToken (opToken c) = true := by
  rcases isOperation_cases h with h | h | h | h <;> subst h <;> decide

theorem skipWs_split (pre ws rest : List Char)
    (hws : ∀ c ∈ ws, c.isWhitespace = true) (hrest : noLeadWs rest = true) :
    skipWs (pre ++ (ws ++ rest)) pre.length = pre.length + ws.length := by
  unfold skipWs
  rw [List.drop_left, wsCount_append_ws rest hws, wsCount_eq_zero hrest]
  omega

theorem drop_two (pre ws rest : List Char) :
    (pre ++ (ws ++ rest)).drop (pre.length + ws.length) = rest := by
  rw [← List.drop_drop, List.drop_left, List.drop_left]

theorem tok_int (pre ws ds rest : List Char)
    (hws : ∀ c ∈ ws, c.isWhitespace = true)
    (hne : ds ≠ []) (hds : ∀ c ∈ ds, c.isDigit = true)
    (hrest : noLeadDigit rest = true) :
    getNextToken (pre ++ (ws ++ (ds ++ rest))) pre.length
      = .ok (.INTEGER (valFrom 0 ds), pre.length + ws.length + ds.length) := by
  obtain ⟨d, ds', rfl⟩ : ∃ d ds', ds = d :: ds' := by
    cases ds with
    | nil => exact absurd rfl hne
    | cons d ds' => exact ⟨d, ds', rfl⟩
  have hd : d.isDigit = true := hds d (by simp)
  have hnlw : noLeadWs ((d :: ds') ++ rest) = true := by
    simp [noLeadWs, digit_not_ws hd]
  have hp := skipWs_split pre ws ((d :: ds') ++ rest) hws hnlw
  have hdrop := drop_two pre ws ((d :: ds') ++ rest)
  have hget : (pre ++ (ws ++ ((d :: ds') ++ rest)))[pre.length + ws.length]?
      = some d := by
    rw [getq_drop, hdrop]
    rfl
  simp only [getNextToken, hp, hget, hd, if_true]
  unfold lexInt
  rw [hdrop, lexDigits_append rest 0 hds hrest]

theorem tok_op (pre ws rest : List Char) (opc : Char)
    (hws : ∀ c ∈ ws, c.isWhitespace = true) (hop : isOperation opc = true) :
    getNextToken (pre ++ (ws ++ (opc :: rest))) pre.length
      = .ok (opToken opc, pre.length + ws.length + 1) := by
  have hnlw : noLeadWs (opc :: rest) = true := by
    simp [noLeadWs, op_not_ws hop]
  have hp := skipWs_split pre ws (opc :: rest) hws hnlw
  have hdrop := drop_two pre ws (opc :: rest)
  have hget : (pre ++ (ws ++ (opc :: rest)))[pre.length + ws.length]?
      = some opc := by
    rw [getq_drop, hdrop]
    rfl
  have hnd : opc.isDigit = false := op_not_digit hop
  rcases isOperation_cases hop with h | h | h | h <;> subst h <;>
    simp [getNextToken, hp, hget, opToken]

theorem tok_tail (pre rem : List Char) (h : tailOk rem = true) :
    ∃ t p', getNextToken (pre ++ rem) pre.length = .ok (t, p') := by
  have hp : skipWs (pre ++ rem) pre.length = pre.length + wsCount rem := by
    unfold skipWs
    rw [List.drop_left]
  have hdrop : (pre ++ rem).drop (pre.length + wsCount rem)
      = rem.drop (wsCount rem) := by
    rw [← List.drop_drop, List.drop_left]
  have hget : (pre ++ rem)[pre.length + wsCount rem]?
      = (rem.drop (wsCount rem)).head? := by
    rw [getq_drop, hdrop]
  unfold tailOk at h
  simp only [getNextToken, hp, hget]
  cases hh : (rem.drop (wsCount rem)).head? with
  | none => exact ⟨_, _, rfl⟩
  | some c =>
    rw [hh] at h
    cases hd : c.isDigit with
    | true => simp only [hd, if_true]; exact ⟨_, _, rfl⟩
    | false =>
      have hoc : isOperation c = true := by
        simp [hd] at h
        simpa [isOperation] using h
      rcases isOperation_cases hoc with h4 | h4 | h4 | h4 <;> subst h4 <;>
        exact ⟨_, _, rfl⟩

theorem evalChars_of_ne_nil {code : List Char} (h : code ≠ []) :
    evalChars code = expr code := by
  cases code with
  | nil => exact absurd rfl h
  | cons c cs => rfl

theorem eval_shape (a b : ℕ) (ws1 ws2 rem : List Char) (opc : Char)
    (hop : isOperation opc = true)
    (hws1 : ∀ c ∈ ws1, c.isWhitespace = true)
    (hws2 : ∀ c ∈ ws2, c.isWhitespace = true)
    (hrem1 : noLeadDigit rem = true)
    (hrem2 : tailOk rem = true) :
    evalChars (natDigits a ++ (ws1 ++ (opc :: (ws2 ++ (natDigits b ++ rem)))))
      = applyOp (opToken opc) a b := by
  set da := natDigits a with hda
  set db := natDigits b with hdb
  set code := da ++ (ws1 ++ (opc :: (ws2 ++ (db ++ rem)))) with hcode
  have hdane : da ≠ [] := by
    rw [hda]
    exact natDigits_ne_nil a
  have hdadig : ∀ c ∈ da, c.isDigit = true := by
    rw [hda]
    exact natDigits_digits a
  have hdbne : db ≠ [] := by
    rw [hdb]
    exact natDigits_ne_nil b
  have hdbdig : ∀ c ∈ db, c.isDigit = true := by
    rw [hdb]
    exact natDigits_digits b
  have hdaval : valFrom 0 da = a := by
    rw [hda]
    exact valFrom_natDigits a
  have hdbval : valFrom 0 db = b := by
    rw [hdb]
    exact valFrom_natDigits b
  have hne : code ≠ [] := by
    rw [hcode]
    intro hnil
    rw [List.append_eq_nil] at hnil
    exact hdane hnil.1
  -- first token: the left integer
  have hnl1 : noLeadDigit (ws1 ++ (opc :: (ws2 ++ (db ++ rem)))) = true := by
    cases ws1 with
    | nil => simp [noLeadDigit, op_not_digit hop]
    | cons w ws' =>
      have hw := hws1 w (by simp)
      simp [noLeadDigit, ws_not_digit hw]
  have h1 := tok_int [] [] da (ws1 ++ (opc :: (ws2 ++ (db ++ rem))))
    (by simp) hdane hdadig hnl1
  rw [hdaval] at h1
  simp only [List.nil_append, List.length_nil, Nat.zero_add] at h1
  -- second token: the operator
  have h2 := tok_op da ws1 (ws2 ++ (db ++ rem)) opc hws1 hop
  -- third token: the right integer
  have h3 := tok_int (da ++ (ws1 ++ [opc])) ws2 db rem hws2
    hdbne hdbdig hrem1
  rw [hdbval] at h3
  have hsh3 : (da ++ (ws1 ++ [opc])) ++ (ws2 ++ (db ++ rem)) = code := by
    simp [hcode]
  have hlen3 : (da ++ (ws1 ++ [opc])).length = da.length + ws1.length + 1 := by
    simp only [List.length_append, List.length_cons, List.length_nil]
    omega
  rw [hsh3, hlen3] at h3
  -- fourth token: the lookahead pulled after the right integer
  have h4 := tok_tail (da ++ (ws1 ++ (opc :: (ws2 ++ db)))) rem hrem2
  have hsh4 : (da ++ (ws1 ++ (opc :: (ws2 ++ db)))) ++ rem = code := by
    simp [hcode]
  have hlen4 : (da ++ (ws1 ++ (opc :: (ws2 ++ db)))).length
      = da.length + ws1.length + 1 + ws2.length + db.length := by
    simp only [List.length_append, List.length_cons, List.length_nil]
    omega
  rw [hsh4, hlen4] at h4
  obtain ⟨t4, p4, h4⟩ := h4
  -- assemble the run of expr
  rw [evalChars_of_ne_nil hne]
  simp only [expr, h1, h2, isOpToken_opToken hop, if_true, h3, h4]

theorem errorAt_parseError {code : List Char} {p : ℕ} {m : String}
    (h : errorAt code p = .parseError m) :
    ∃ c, code[p]? = some c ∧ m = errMsg p c := by
  unfold errorAt at h
  cases hg : code[p]? with
  | none => rw [hg] at h; cases h
  | some c =>
    rw [hg] at h
    injection h with h'
    exact ⟨c, rfl, h'.symm⟩

theorem getNextToken_parseError {code : List Char} {pos : ℕ} {e : Err}
    (h : getNextToken code pos = .error e) :
    ∃ p c, code[p]? = some c ∧ e = .parseError (errMsg p c) := by
  simp only [getNextToken] at h
  cases hg : code[skipWs code pos]? with
  | none => rw [hg] at h; cases h
  | some c =>
    rw [hg] at h
    cases hd : c.isDigit with
    | true => simp [hd] at h
    | false =>
      simp only [hd, Bool.false_eq_true, if_false] at h
      by_cases h1 : c = '+'
      · simp [h1] at h
      by_cases h2 : c = '-'
      · simp [h1, h2] at h
      by_cases h3 : c = '*'
      · simp [h1, h2, h3] at h
      by_cases h4 : c = '/'
      · simp [h1, h2, h3, h4] at h
      simp only [h1, h2, h3, h4, if_false] at h
      have he : e = errorAt code (skipWs code pos) := by
        injection h with h'
        exact h'.symm
      refine ⟨skipWs code pos, c, hg, ?_⟩
      rw [he]
      unfold errorAt
      rw [hg]

theorem applyOp_no_parseError {op : Token} {l r : ℕ} {m : String} :
    applyOp op l r ≠ .error (.parseError m) := by
  intro h
  cases op with
  | INTEGER n => simp [applyOp] at h
  | PLUS => simp [applyOp] at h
  | MINUS => simp [applyOp] at h
  | MULTIPLY => simp [applyOp] at h
  | DIVIDE => by_cases hr : r = 0 <;> simp [applyOp, hr] at h
  | EOF => simp [applyOp] at h

theorem getNextToken_parseError2 {code : List Char} {pos : ℕ} {m : String}
    (h : getNextToken code pos = .error (.parseError m)) :
    ∃ p c, code[p]? = some c ∧ m = errMsg p c := by
  obtain ⟨p, c, hc, he⟩ := getNextToken_parseError h
  injection he with he'
  exact ⟨p, c, hc, he'⟩

theorem expr_parseError {code : List Char} {m : String}
    (h : expr code = .error (.parseError m)) :
    ∃ p c, code[p]? = some c ∧ m = errMsg p c := by
  unfold expr at h
  cases hg1 : getNextToken code 0 with
  | error e =>
    rw [hg1] at h
    injection h with h'
    subst h'
    exact getNextToken_parseError2 hg1
  | ok v =>
    obtain ⟨tok1, p1⟩ := v
    rw [hg1] at h
    cases tok1 with
    | INTEGER l =>
      dsimp only at h
      cases hg2 : getNextToken code p1 with
      | error e =>
        rw [hg2] at h
        injection h with h'
        subst h'
        exact getNextToken_parseError2 hg2
      | ok v2 =>
        obtain ⟨op, p2⟩ := v2
        rw [hg2] at h
        dsimp only at h
        cases hop : isOpToken op with
        | false =>
          simp only [hop, Bool.false_eq_true, if_false] at h
          injection h with h'
          obtain ⟨c, hc, hm⟩ := errorAt_parseError h'
          exact ⟨p2, c, hc, hm⟩
        | true =>
          simp only [hop, if_true] at h
          cases hg3 : getNextToken code p2 with
          | error e =>
            rw [hg3] at h
            injection h with h'
            subst h'
            exact getNextToken_parseError2 hg3
          | ok v3 =>
            obtain ⟨tok3, p3⟩ := v3
            rw [hg3] at h
            cases tok3 with
            | INTEGER r =>
              dsimp only at h
              cases hg4 : getNextToken code p3 with
              | error e =>
                rw [hg4] at h
                injection h with h'
                subst h'
                exact getNextToken_parseError2 hg4
              | ok v4 =>
                rw [hg4] at h
                dsimp only at h
                exact absurd h applyOp_no_parseError
            | PLUS =>
              dsimp only at h
              injection h with h'
              obtain ⟨c, hc, hm⟩ := errorAt_parseError h'
              exact ⟨p3, c, hc, hm⟩
            | MINUS =>
              dsimp only at h
              injection h with h'
              obtain ⟨c, hc, hm⟩ := errorAt_parseError h'
              exact ⟨p3, c, hc, hm⟩
            | MULTIPLY =>
              dsimp only at h
              injection h with h'
              obtain ⟨c, hc, hm⟩ := errorAt_parseError h'
              exact ⟨p3, c, hc, hm⟩
            | DIVIDE =>
              dsimp only at h
              injection h with h'
              obtain ⟨c, hc, hm⟩ := errorAt_parseError h'
              exact ⟨p3, c, hc, hm⟩
            | EOF =>
              dsimp only at h
              injection h with h'
              obtain ⟨c, hc, hm⟩ := errorAt_parseError h'
              exact ⟨p3, c, hc, hm⟩
    | PLUS =>
      dsimp only at h
      injection h with h'
      obtain ⟨c, hc, hm⟩ := errorAt_parseError h'
      exact ⟨p1, c, hc, hm⟩
    | MINUS =>
      dsimp only at h
      injection h with h'
      obtain ⟨c, hc, hm⟩ := errorAt_parseError h'
      exact ⟨p1, c, hc, hm⟩
    | MULTIPLY =>
      dsimp only at h
      injection h with h'
      obtain ⟨c, hc, hm⟩ := errorAt_parseError h'
      exact ⟨p1, c, hc, hm⟩
    | DIVIDE =>
      dsimp only at h
      injection h with h'
      obtain ⟨c, hc, hm⟩ := errorAt_parseError h'
      exact ⟨p1, c, hc, hm⟩
    | EOF =>
      dsimp only at h
      injection h with h'
      obtain ⟨c, hc, hm⟩ := errorAt_parseError h'
      exact ⟨p1, c, hc, hm⟩

theorem evalChars_parseError {code : List Char} {m : String}
    (h : evalChars code = .error (.parseError m)) :
    ∃ p c, code[p]? = some c ∧ m = errMsg p c := by
  cases code with
  | nil => cases h
  | cons c cs => exact expr_parseError h

theorem getNextToken_eof {code : List Char} {pos : ℕ} (h : code.length ≤ pos) :
    getNextToken code pos = .ok (.EOF, pos) := by
  have hdrop : code.drop pos = [] := List.drop_of_length_le h
  have hp : skipWs code pos = pos := by
    unfold skipWs
    rw [hdrop]
    rfl
  have hg : code[pos]? = none := by
    rw [getq_drop, hdrop]
    rfl
  simp [getNextToken, hp, hg]

theorem getNextToken_bounds {code : List Char} {pos : ℕ} {t : Token} {p' : ℕ}
    (h : getNextToken code pos = .ok (t, p')) :
    pos ≤ p' ∧ (pos ≤ code.length → p' ≤ code.length) := by
  have hq : skipWs code pos = pos + wsCount (code.drop pos) := rfl
  have hwle : wsCount (code.drop pos) ≤ code.length - pos := by
    have h1 := wsCount_le (code.drop pos)
    rwa [List.length_drop] at h1
  simp only [getNextToken] at h
  cases hg : code[skipWs code pos]? with
  | none =>
    rw [hg] at h
    simp only [Except.ok.injEq, Prod.mk.injEq] at h
    obtain ⟨_, hp⟩ := h
    constructor
    · omega
    · intro hle
      omega
  | some c =>
    have hlt : skipWs code pos < code.length := by
      by_contra hc
      push_neg at hc
      rw [List.getElem?_eq_none hc] at hg
      cases hg
    rw [hg] at h
    cases hd : c.isDigit with
    | true =>
      simp only [hd, if_true] at h
      simp only [Except.ok.injEq, Prod.mk.injEq] at h
      obtain ⟨_, hp⟩ := h
      have hdl := lexDigits_snd_le (code.drop (skipWs code pos)) 0
      rw [List.length_drop] at hdl
      simp only [lexInt] at hp
      constructor
      · omega
      · intro hle
        omega
    | false =>
      simp only [hd, Bool.false_eq_true, if_false] at h
      by_cases h1 : c = '+'
      · simp [h1] at h
        obtain ⟨_, hp⟩ := h
        exact ⟨by omega, fun _ => by omega⟩
      by_cases h2 : c = '-'
      · simp [h1, h2] at h
        obtain ⟨_, hp⟩ := h
        exact ⟨by omega, fun _ => by omega⟩
      by_cases h3 : c = '*'
      · simp [h1, h2, h3] at h
        obtain ⟨_, hp⟩ := h
        exact ⟨by omega, fun _ => by omega⟩
      by_cases h4 : c = '/'
      · simp [h1, h2, h3, h4] at h
        obtain ⟨_, hp⟩ := h
        exact ⟨by omega, fun _ => by omega⟩
      simp [h1, h2, h3, h4] at h

theorem wsCountF_eq {fuel : ℕ} {l : List Char} (h : l.length ≤ fuel) :
    wsCountF fuel l = some (wsCount l) := by
  induction l generalizing fuel with
  | nil => cases fuel <;> rfl
  | cons c cs ih =>
    cases fuel with
    | zero => simp at h
    | succ fuel =>
      have h' : cs.length ≤ fuel := by
        simp only [List.length_cons] at h
        omega
      cases hc : c.isWhitespace with
      | true => simp [wsCountF, wsCount, hc, ih h']
      | false => simp [wsCountF, wsCount, hc]

theorem lexDigitsF_eq {fuel : ℕ} {l : List Char} (acc : ℕ)
    (h : l.length ≤ fuel) :
    lexDigitsF fuel l acc = some (lexDigits l acc) := by
  induction l generalizing fuel acc with
  | nil => cases fuel <;> rfl
  | cons c cs ih =>
    cases fuel with
    | zero => simp at h
    | succ fuel =>
      have h' : cs.length ≤ fuel := by
        simp only [List.length_cons] at h
        omega
      cases hc : c.isDigit with
      | true => simp [lexDigitsF, lexDigits, hc, ih _ h']
      | false => simp [lexDigitsF, lexDigits, hc]

theorem getNextTokenF_eq {fuel : ℕ} {code : List Char}
    (h : code.length ≤ fuel) (pos : ℕ) :
    getNextTokenF fuel code pos = some (getNextToken code pos) := by
  have h1 : (code.drop pos).length ≤ fuel := by
    rw [List.length_drop]
    omega
  have h2 : (code.drop (pos + wsCount (code.drop pos))).length ≤ fuel := by
    rw [List.length_drop]
    omega
  simp only [getNextTokenF, getNextToken, wsCountF_eq h1, skipWs]
  cases hg : code[pos + wsCount (code.drop pos)]? with
  | none => rfl
  | some c =>
    cases hd : c.isDigit with
    | true => simp [hd, lexDigitsF_eq 0 h2, lexInt, skipWs]
    | false =>
      by_cases hc1 : c = '+'
      · simp [hd, hc1]
      by_cases hc2 : c = '-'
      · simp [hd, hc1, hc2]
      by_cases hc3 : c = '*'
      · simp [hd, hc1, hc2, hc3]
      by_cases hc4 : c = '/'
      · simp [hd, hc1, hc2, hc3, hc4]
      simp [hd, hc1, hc2, hc3, hc4]

theorem exprF_eq {fuel : ℕ} {code : List Char} (h : code.length ≤ fuel) :
    exprF fuel code = some (expr code) := by
  simp only [exprF, expr, getNextTokenF_eq h]
  cases hg1 : getNextToken code 0 with
  | error e => rfl
  | ok v =>
    obtain ⟨tok1, p1⟩ := v
    cases tok1 <;> dsimp only
    case INTEGER l =>
      cases hg2 : getNextToken code p1 with
      | error e => rfl
      | ok v2 =>
        obtain ⟨op, p2⟩ := v2
        dsimp only
        cases hop : isOpToken op with
        | false => simp [hop]
        | true =>
          simp only [hop, if_true]
          cases hg3 : getNextToken code p2 with
          | error e => rfl
          | ok v3 =>
            obtain ⟨tok3, p3⟩ := v3
            cases tok3 with
            | INTEGER r =>
              dsimp only
              cases hg4 : getNextToken code p3 with
              | error e => rfl
              | ok v4 => rfl
            | PLUS => rfl
            | MINUS => rfl
            | MULTIPLY => rfl
            | DIVIDE => rfl
            | EOF => rfl

theorem evalCharsF_eq {fuel : ℕ} {code : List Char} (h : code.length ≤ fuel) :
    evalCharsF fuel code = some (evalChars code) := by
  cases code with
  | nil => rfl
  | cons c cs => exact exprF_eq h

/-- Claim C1: for every pair of non-negative integers `a`, `b` and every
operator `op` in `{+, -, *, /}` (with `b ≠ 0` when `op = /`), evaluating the
concatenation of `a`, `op`, `b` — with arbitrary whitespace inserted between
the tokens, including none — returns exactly `apply(op, a, b)` (the host
operator applied to the operands, modelled by `applyOp`), and the result is
a success value. -/
theorem C1_concat_eval_correct (a b : ℕ) (ws1 ws2 : List Char) (opc : Char)
    (hop : isOperation opc = true)
    (hws1 : ∀ c ∈ ws1, c.isWhitespace = true)
    (hws2 : ∀ c ∈ ws2, c.isWhitespace = true)
    (hdiv : opc = '/' → b ≠ 0) :
    evaluate (String.mk (natDigits a ++ (ws1 ++ (opc :: (ws2 ++ natDigits b)))))
      = applyOp (opToken opc) a b
    ∧ ∃ v, applyOp (opToken opc) a b = .ok v := by
  have hm := eval_shape a b ws1 ws2 [] opc hop hws1 hws2 (by decide) (by decide)
  rw [List.append_nil] at hm
  refine ⟨hm, ?_⟩
  rcases isOperation_cases hop with h | h | h | h
  · subst h
    exact ⟨_, rfl⟩
  · subst h
    exact ⟨_, rfl⟩
  · subst h
    exact ⟨_, rfl⟩
  · subst h
    refine ⟨.float ((a : ℚ) / (b : ℚ)), ?_⟩
    simp [applyOp, opToken, hdiv rfl]

/-- Witness for C1 at `a = 12`, `op = *`, `b = 4` with one space on each
side of the operator: the input is the string `"12 * 4"` and the result is
the integer `48`. -/
theorem C1_concat_eval_correct_witness :
    (evaluate (String.mk (natDigits 12 ++ ([' '] ++ ('*' :: ([' '] ++ natDigits 4)))))
        = applyOp (opToken '*') 12 4
      ∧ ∃ v, applyOp (opToken '*') 12 4 = .ok v)
    ∧ String.mk (natDigits 12 ++ ([' '] ++ ('*' :: ([' '] ++ natDigits 4)))) = "12 * 4"
    ∧ applyOp (opToken '*') 12 4 = .ok (.int 48) :=
  ⟨C1_concat_eval_correct 12 4 [' '] [' '] '*' (by decide) (by decide)
      (by decide) (by decide),
    rfl, rfl⟩

/-- Claim C2: on well-formed `INTEGER OP INTEGER` input a division-by-zero
error — the `zeroDivisionError` constructor, distinct from `parseError` —
is raised if and only if the operator is `/` and the right operand is `0`.
The witness instantiates it at the input `"1/0"`. -/
theorem C2_zero_division_iff (a b : ℕ) (opc : Char)
    (hop : isOperation opc = true) :
    evaluate (String.mk (natDigits a ++ (opc :: natDigits b)))
        = .error .zeroDivisionError
      ↔ (opc = '/' ∧ b = 0) := by
  have hm := eval_shape a b [] [] [] opc hop (by simp) (by simp)
    (by decide) (by decide)
  rw [List.append_nil] at hm
  have he : evaluate (String.mk (natDigits a ++ (opc :: natDigits b)))
      = applyOp (opToken opc) a b := hm
  rw [he]
  rcases isOperation_cases hop with h | h | h | h
  · subst h
    simp [applyOp, opToken, (by decide : ('+' : Char) ≠ '/')]
  · subst h
    simp [applyOp, opToken, (by decide : ('-' : Char) ≠ '/')]
  · subst h
    simp [applyOp, opToken, (by decide : ('*' : Char) ≠ '/')]
  · subst h
    by_cases hb : b = 0
    · subst hb
      simp [applyOp, opToken]
    · simp [applyOp, opToken, hb]

/-- Witness for C2: the input `"1/0"` fails with the division-by-zero
error (and so not with a `parseError`). -/
theorem C2_zero_division_iff_witness :
    evaluate (String.mk (natDigits 1 ++ ('/' :: natDigits 0)))
        = .error .zeroDivisionError
      ∧ String.mk (natDigits 1 ++ ('/' :: natDigits 0)) = "1/0" :=
  ⟨(C2_zero_division_iff 1 0 '/' (by decide)).mpr ⟨rfl, rfl⟩, rfl⟩

/-- Claim C3 (refuted by the code, which is the buggy side): evaluating
`"1+"` does not fail with a `ParseError` as the claim states; it fails with
the host's `IndexError`, because `_eat` detects the missing second integer
and calls `_error()`, whose message interpolation reads `self.code[2]` past
the end of the two-character input. -/
theorem C3_missing_integer_index_error :
    evaluate "1+" = .error .indexError
      ∧ ∀ m, evaluate "1+" ≠ .error (.parseError m) := by
  have h : evaluate "1+" = .error .indexError := rfl
  refine ⟨h, fun m hm => ?_⟩
  rw [h] at hm
  injection hm with hm'
  cases hm'

/-- Witness for C3: instantiating its universally quantified part at a
concrete message shows `"1+"` does not produce that `ParseError`. -/
theorem C3_missing_integer_index_error_witness :
    evaluate "1+" ≠ .error (.parseError (errMsg 0 '1')) :=
  C3_missing_integer_index_error.2 (errMsg 0 '1')

/-- Claim C4: evaluating `"a+1"` fails with a `ParseError` whose message
names 1-based position `1` and character `a`, and every `ParseError` the
evaluator ever raises carries the diagnostic line
`Error parsing code at symbol <1-based position>: '<offending character>'`
for the character at the error position (the code prepends a caret-pointer
line `" " * (pos + 3) + "^\n"` to that diagnostic line). -/
theorem C4_parse_error_position_message :
    (evaluate "a+1" = .error (.parseError (errMsgPre 0 ++ errMsgLine 0 'a'))
      ∧ errMsgLine 0 'a' = "Error parsing code at symbol 1: 'a'")
    ∧ ∀ (code : List Char) (m : String),
        evalChars code = .error (.parseError m) →
        ∃ p c, code[p]? = some c ∧ m = errMsgPre p ++ errMsgLine p c := by
  refine ⟨⟨rfl, rfl⟩, ?_⟩
  intro code m hm
  obtain ⟨p, c, hc, hmsg⟩ := evalChars_parseError hm
  exact ⟨p, c, hc, hmsg⟩

/-- Witness for C4 at the one-character input `"#"`: its `ParseError`
message decomposes as the caret line plus the diagnostic line for
position `0` and character `#`. -/
theorem C4_parse_error_position_message_witness :
    ∃ p c, (['#'] : List Char)[p]? = some c
      ∧ errMsg 0 '#' = errMsgPre p ++ errMsgLine p c :=
  C4_parse_error_position_message.2 ['#'] (errMsg 0 '#') rfl

/-- Counterexample to claim C5 as stated: the remainder after an
`INTEGER OP INTEGER` prefix is not always silently ignored.  For the input
`"1+2a"` (prefix `"1+2"`, remainder `"a"`) the evaluator raises a
`ParseError` at symbol 4 instead of returning the value `3` of the prefix,
because the parser pulls one lookahead token after the second integer and
tokenizing `"a"` fails. -/
theorem C5_trailing_counterexample :
    evaluate "1+2a" = .error (.parseError (errMsg 3 'a'))
      ∧ evaluate "1+2a" ≠ .ok (.int 3)
      ∧ evaluate "1+2" = .ok (.int 3) := by
  have h : evaluate "1+2a" = .error (.parseError (errMsg 3 'a')) := rfl
  refine ⟨h, ?_, rfl⟩
  intro hc
  rw [h] at hc
  exact Except.noConfusion hc

/-- Claim C5 as amended: the evaluator never checks that the token after
the second integer is `EOF`; the remainder is silently ignored provided the
single lookahead token pulled right after the second integer lexes without
error (`tailOk`: after whitespace skipping, the remainder is empty or
starts with a digit or an operator character) — under that proviso the
result equals the result of evaluating the `INTEGER OP INTEGER` prefix
alone, e.g. `"1+2+3"` returns the value of `"1+2"`, which is `3`. -/
theorem C5_trailing_tolerance (a b : ℕ) (ws1 ws2 rem : List Char)
    (opc : Char)
    (hop : isOperation opc = true)
    (hws1 : ∀ c ∈ ws1, c.isWhitespace = true)
    (hws2 : ∀ c ∈ ws2, c.isWhitespace = true)
    (hrem1 : noLeadDigit rem = true)
    (hrem2 : tailOk rem = true) :
    evaluate (String.mk
        (natDigits a ++ (ws1 ++ (opc :: (ws2 ++ (natDigits b ++ rem))))))
      = evaluate (String.mk
        (natDigits a ++ (ws1 ++ (opc :: (ws2 ++ natDigits b))))) := by
  have h1 := eval_shape a b ws1 ws2 rem opc hop hws1 hws2 hrem1 hrem2
  have h2 := eval_shape a b ws1 ws2 [] opc hop hws1 hws2 (by decide) (by decide)
  rw [List.append_nil] at h2
  have e1 : evaluate (String.mk
      (natDigits a ++ (ws1 ++ (opc :: (ws2 ++ (natDigits b ++ rem))))))
      = applyOp (opToken opc) a b := h1
  have e2 : evaluate (String.mk
      (natDigits a ++ (ws1 ++ (opc :: (ws2 ++ natDigits b)))))
      = applyOp (opToken opc) a b := h2
  rw [e1, e2]

/-- Witness for the amended C5 at `"1+2+3"`: it evaluates to the same
result as `"1+2"`, namely `3`. -/
theorem C5_trailing_tolerance_witness :
    evaluate (String.mk
        (natDigits 1 ++ ([] ++ ('+' :: ([] ++ (natDigits 2 ++ ['+', '3']))))))
      = evaluate (String.mk
        (natDigits 1 ++ ([] ++ ('+' :: ([] ++ natDigits 2)))))
    ∧ String.mk
        (natDigits 1 ++ ([] ++ ('+' :: ([] ++ (natDigits 2 ++ ['+', '3'])))))
      = "1+2+3"
    ∧ evaluate "1+2" = .ok (.int 3) :=
  ⟨C5_trailing_tolerance 1 2 [] [] ['+', '3'] '+' (by decide) (by decide)
      (by decide) (by decide) (by decide),
    rfl, rfl⟩

/-- Claim C6: on success the evaluator returns a Python `int` when the
operator is `+`, `-` or `*`, and a real-valued number with true-division
semantics (the exact quotient `a / b`, not floor division) when the
operator is `/`; in particular `"10/4"` evaluates to `2.5`. -/
theorem C6_result_numeric_type (a b : ℕ) (opc : Char)
    (hop : isOperation opc = true) :
    (evaluate "10/4" = .ok (.float (((10 : ℕ) : ℚ) / ((4 : ℕ) : ℚ)))
      ∧ (((10 : ℕ) : ℚ) / ((4 : ℕ) : ℚ)) = 5 / 2)
    ∧ (opc ≠ '/' →
        ∃ i : ℤ, evaluate (String.mk (natDigits a ++ (opc :: natDigits b)))
          = .ok (.int i))
    ∧ (opc = '/' → b ≠ 0 →
        evaluate (String.mk (natDigits a ++ (opc :: natDigits b)))
          = .ok (.float ((a : ℚ) / (b : ℚ)))) := by
  have hm := eval_shape a b [] [] [] opc hop (by simp) (by simp)
    (by decide) (by decide)
  rw [List.append_nil] at hm
  have he : evaluate (String.mk (natDigits a ++ (opc :: natDigits b)))
      = applyOp (opToken opc) a b := hm
  refine ⟨⟨rfl, by norm_num⟩, ?_, ?_⟩
  · intro hne
    rw [he]
    rcases isOperation_cases hop with h | h | h | h
    · subst h
      exact ⟨_, rfl⟩
    · subst h
      exact ⟨_, rfl⟩
    · subst h
      exact ⟨_, rfl⟩
    · exact absurd h hne
  · intro hd hb
    subst hd
    rw [he]
    simp [applyOp, opToken, hb]

/-- Witness for C6 at `"10/4"`: the result is the float `10 / 4 = 2.5`
(the exact quotient, not the floor `2`). -/
theorem C6_result_numeric_type_witness :
    evaluate (String.mk (natDigits 10 ++ ('/' :: natDigits 4)))
        = .ok (.float (((10 : ℕ) : ℚ) / ((4 : ℕ) : ℚ)))
    ∧ String.mk (natDigits 10 ++ ('/' :: natDigits 4)) = "10/4"
    ∧ (((10 : ℕ) : ℚ) / ((4 : ℕ) : ℚ)) = 5 / 2 :=
  ⟨(C6_result_numeric_type 10 4 '/' (by decide)).2.2 rfl (by decide),
    rfl, by norm_num⟩

/-- Claim C7: the tokenizer is idempotent at end-of-input.  Whenever the
position has reached the end of the input (`pos ≥ length`, the `_eof`
condition of the code), `_get_next_token` returns the `EOF` token with the
position unchanged, and from the state it returns it does so again on every
subsequent request. -/
theorem C7_eof_idempotent (code : List Char) (pos : ℕ)
    (h : code.length ≤ pos) :
    getNextToken code pos = .ok (.EOF, pos)
      ∧ ∀ t q, getNextToken code pos = .ok (t, q) →
          getNextToken code q = .ok (.EOF, q) := by
  refine ⟨getNextToken_eof h, ?_⟩
  intro t q hq
  rw [getNextToken_eof h] at hq
  simp only [Except.ok.injEq, Prod.mk.injEq] at hq
  obtain ⟨-, rfl⟩ := hq
  exact getNextToken_eof h

/-- Witness for C7 on the exhausted input `"1+"` at position 2. -/
theorem C7_eof_idempotent_witness :
    getNextToken ['1', '+'] 2 = .ok (.EOF, 2)
      ∧ ∀ t q, getNextToken ['1', '+'] 2 = .ok (t, q) →
          getNextToken ['1', '+'] q = .ok (.EOF, q) :=
  C7_eof_idempotent ['1', '+'] 2 (by decide)

/-- Claim C8: every successful tokenizer step from position `pos` returns
a position `p'` with `pos ≤ p'` (the position is monotonically
non-decreasing; evaluation starts it at `0` by definition of `expr`), and
positions never exceed the input length. -/
theorem C8_position_monotone_bounded (code : List Char) (pos : ℕ)
    (t : Token) (p' : ℕ)
    (h : getNextToken code pos = .ok (t, p')) :
    pos ≤ p' ∧ (pos ≤ code.length → p' ≤ code.length) :=
  getNextToken_bounds h

/-- Witness for C8 on the input `"12"` from position 0: the integer token
is consumed and the position moves from `0` to `2 = length`. -/
theorem C8_position_monotone_bounded_witness :
    (0 : ℕ) ≤ 2
      ∧ ((0 : ℕ) ≤ (['1', '2'] : List Char).length →
          2 ≤ (['1', '2'] : List Char).length) :=
  C8_position_monotone_bounded ['1', '2'] 0 (.INTEGER 12) 2 rfl

/-- Claim C9: evaluation always terminates, in a number of loop steps
bounded by the input length: running the fuel-counted interpreter — in
which every iteration of the whitespace-skipping loop and of the digit
loop consumes one unit of fuel and exhausted fuel yields `none` — with
fuel exactly the input length never runs out and computes the very same
result as the interpreter. -/
theorem C9_terminates_fuel_length (code : List Char) :
    evalCharsF code.length code = some (evalChars code) :=
  evalCharsF_eq (Nat.le_refl _)

/-- Claim C10: on the empty input string, `Interpreter.__init__` itself
fails — `self.current_char = self.code[0]` raises the host's out-of-range
`IndexError` before any tokenizing — so evaluation of `""` yields
`indexError`, not a `ParseError`. -/
theorem C10_empty_input_index_error :
    evaluate "" = .error .indexError
      ∧ ∀ m, evaluate "" ≠ .error (.parseError m) := by
  have h : evaluate "" = .error .indexError := rfl
  refine ⟨h, fun m hm => ?_⟩
  rw [h] at hm
  injection hm with hm'
  cases hm'

/-- Witness for C10: instantiating its universally quantified part at a
concrete message shows the empty input does not produce that `ParseError`. -/
theorem C10_empty_input_index_error_witness :
    evaluate "" ≠ .error (.parseError (errMsg 0 ' ')) :=
  C10_empty_input_index_error.2 (errMsg 0 ' ')

end Interp